import Mathlib

/-!
Verification of the meditation-page generator (`generate.py`).

The Python source is shallowly embedded: strings are `String` / `List Char`,
Python `None` is `Option.none`, Python integers are `Int` with floor
division (`Int.fdiv` / `Int.fmod`), and the regex-based text rewriting is
modelled by explicit left-to-right scanners that implement the exact
leftmost-match semantics of the patterns used in the source.  Functions are
kept executable (fuel-based recursion where the Python code consumes a
variable number of characters per step) so that concrete inputs evaluate by
`decide`.  Unicode-specific behaviour of Python (`str.lower`, `str.split`,
`int()` on non-ASCII digits) is modelled at ASCII fidelity, matching every
keyword and test string appearing in the repository.
-/

/-! ### Character utilities -/

/-- ASCII whitespace, the characters matched by Python's `str.split()` and
by `\s` in the linkification regex. -/
def isSpace (c : Char) : Bool :=
  c == ' ' || c == '\t' || c == '\n' || c == '\r' || c == '\x0b' || c == '\x0c'

/-- Characterwise lower-casing, modelling `str.lower()` (ASCII fidelity). -/
def lowerChars (cs : List Char) : List Char :=
  cs.map Char.toLower

/-- Substring test, modelling Python's `needle in haystack` for strings. -/
def containsKw (needle : List Char) : List Char → Bool
  | [] => needle.isEmpty
  | c :: cs => needle.isPrefixOf (c :: cs) || containsKw needle cs

/-! ### Classifier (`is_guided_meditation`, generate.py lines 16-55) -/

/-- Keywords to identify guided meditations (`MEDITATION_KEYWORDS`). -/
def MEDITATION_KEYWORDS : List String :=
  ["guided meditation",
   "guided meditaton",
   "body scan",
   "breath meditation",
   "mindfulness meditation",
   "sitting meditation",
   "walking meditation",
   "compassion meditation",
   "awareness meditation"]

/-- Keywords that exclude talks that are not meditations (`EXCLUDE_KEYWORDS`). -/
def EXCLUDE_KEYWORDS : List String :=
  ["dharmette",
   "practice notes",
   "dharma talk",
   "questions and answers",
   "q&a",
   "discussion"]

/-- `is_guided_meditation(title, description)`.  The source builds
`text_lower = f"{title_lower} {description.lower()}"` (note the single space
between the two fields), checks every exclusion keyword against the
lowercased title with early return, then every inclusion keyword against
`text_lower`. -/
def is_guided_meditation (title description : String) : Bool :=
  let title_lower := lowerChars title.data
  let text_lower := title_lower ++ ' ' :: lowerChars description.data
  if EXCLUDE_KEYWORDS.any (fun ex => containsKw ex.data title_lower) then
    false
  else
    MEDITATION_KEYWORDS.any (fun kw => containsKw kw.data text_lower)

/-! ### Duration formatter (`format_duration`, generate.py lines 130-162) -/

/-- `str.split(':')` on character lists. -/
def splitOnColon : List Char → List (List Char)
  | [] => [[]]
  | c :: cs =>
    match splitOnColon cs with
    | [] => [[]]
    | w :: ws => if c = ':' then [] :: w :: ws else (c :: w) :: ws

/-- Value of a nonempty all-digit string. -/
def digitsVal (ds : List Char) : Option Nat :=
  if ds = [] then none
  else if ds.all Char.isDigit then
    some (ds.foldl (fun a c => a * 10 + (c.toNat - '0'.toNat)) 0)
  else none

/-- Python's `int(s)` on a string: optional surrounding whitespace, an
optional single sign, then one or more digits; anything else raises
`ValueError`, modelled as `none` (ASCII fidelity). -/
def pyInt (cs : List Char) : Option Int :=
  match ((cs.dropWhile isSpace).reverse.dropWhile isSpace).reverse with
  | '+' :: ds => (digitsVal ds).map (fun n => (n : Int))
  | '-' :: ds => (digitsVal ds).map (fun n => -(n : Int))
  | ds => (digitsVal ds).map (fun n => (n : Int))

/-- `format_duration(duration_str)`.  The argument may be Python `None`
(modelled as `Option.none`); an empty string is falsy and also yields
`None`.  With colons, only 2- and 3-part splits are handled and every part
goes through `int()`; any other split length falls off the end of the
function, returning `None`.  Without colons the value is a count of seconds
and Python floor division/modulo (`Int.fdiv`/`Int.fmod`) derive hours and
minutes. -/
def format_duration (duration_str : Option String) : Option String :=
  match duration_str with
  | none => none
  | some s =>
    let cs := s.data
    if cs = [] then none
    else if ':' ∈ cs then
      match splitOnColon cs with
      | [p0, p1, p2] =>
        match pyInt p0, pyInt p1, pyInt p2 with
        | some hours, some mins, some _secs =>
          if 0 < hours then some (toString hours ++ "h " ++ toString mins ++ "m")
          else some (toString mins ++ "m")
        | _, _, _ => none
      | [p0, p1] =>
        match pyInt p0, pyInt p1 with
        | some mins, some _secs => some (toString mins ++ "m")
        | _, _ => none
      | _ => none
    else
      match pyInt cs with
      | some total_seconds =>
        if 0 < total_seconds.fdiv 3600 then
          some (toString (total_seconds.fdiv 3600) ++ "h "
                ++ toString ((total_seconds.fmod 3600).fdiv 60) ++ "m")
        else
          some (toString ((total_seconds.fmod 3600).fdiv 60) ++ "m")
      | none => none

/-! ### Description processor (`process_description`, generate.py lines 164-198)

The pipeline is: strip tags with `re.sub('<[^<]+?>', '', d)`, remove star
runs with `re.sub(r'\*{3,}', '', d)`, word-truncate to 150 tokens, escape
HTML entities, then linkify bare URLs with
`re.sub(r'(https?://[^\s<>"{}|\\^`\[\]]+|www\.[^\s<>"{}|\\^`\[\]]+)', make_link, d)`.
Each `re.sub` is modelled by a left-to-right scanner implementing the
leftmost-match semantics of the concrete pattern; fuel (bounded by the input
length, with strictly shrinking arguments) keeps the scanners structurally
recursive and hence computable by `decide`. -/

/-- Scan for the first `>` closing a tag body: characters before it must not
be `<` (the class `[^<]`), and the lazy `+?` stops at the first `>`. -/
def tagEnd : List Char → Option (List Char)
  | [] => none
  | c :: cs => if c = '>' then some cs else if c = '<' then none else tagEnd cs

/-- Attempt the pattern `<[^<]+?>` at the head of the input; on success
return the remainder after the match. -/
def matchTag (cs : List Char) : Option (List Char) :=
  match cs with
  | c0 :: c1 :: rest => if c0 = '<' ∧ c1 ≠ '<' then tagEnd rest else none
  | _ => none

def stripTagsAux : Nat → List Char → List Char
  | 0, _ => []
  | _, [] => []
  | f + 1, c :: cs =>
    match matchTag (c :: cs) with
    | some rest => stripTagsAux f rest
    | none => c :: stripTagsAux f cs

/-- `re.sub('<[^<]+?>', '', description)`. -/
def stripTags (cs : List Char) : List Char := stripTagsAux cs.length cs

def stripStarsAux : Nat → List Char → List Char
  | 0, _ => []
  | _, [] => []
  | f + 1, c :: cs =>
    if c = '*' then
      if 3 ≤ ((c :: cs).takeWhile (fun x => x == '*')).length then
        stripStarsAux f ((c :: cs).dropWhile (fun x => x == '*'))
      else c :: stripStarsAux f cs
    else c :: stripStarsAux f cs

/-- `re.sub(r'\*{3,}', '', description)`: a maximal run of three or more
asterisks is deleted; shorter runs are kept. -/
def stripStars (cs : List Char) : List Char := stripStarsAux cs.length cs

/-- One step of `str.split()` (read via `foldr`): whitespace closes the
current word, other characters extend it. -/
def splitStep (c : Char) (acc : List (List Char)) : List (List Char) :=
  if isSpace c then [] :: acc
  else
    match acc with
    | [] => [[c]]
    | w :: ws => (c :: w) :: ws

def pySplitAux (cs : List Char) : List (List Char) := cs.foldr splitStep []

/-- Python's `str.split()` with no arguments: split on whitespace runs,
discarding empty tokens. -/
def pySplit (cs : List Char) : List (List Char) :=
  (pySplitAux cs).filter (fun w => !w.isEmpty)

/-- `' '.join(words)`. -/
def joinWords : List (List Char) → List Char
  | [] => []
  | [w] => w
  | w :: v :: ws => w ++ ' ' :: joinWords (v :: ws)

/-- One character of `html.escape(s)` (quote=True): `&`, `<`, `>`, `"` and
`'` become entities, everything else is unchanged.  The stdlib's sequential
`str.replace` calls are equivalent to this characterwise map because no
replacement string contains a later target character. -/
def escChar (c : Char) : List Char :=
  if c = '&' then "&amp;".data
  else if c = '<' then "&lt;".data
  else if c = '>' then "&gt;".data
  else if c = '"' then "&quot;".data
  else if c = '\'' then "&#x27;".data
  else [c]

def htmlEscape : List Char → List Char
  | [] => []
  | c :: cs => escChar c ++ htmlEscape cs

/-- The character class `[^\s<>"{}|\\^`\[\]]` of the URL regex.  (The
backtick, `{` and `}` are written via `Char.ofNat`.) -/
def urlChar (c : Char) : Bool :=
  !(isSpace c || c == '<' || c == '>' || c == '"' || c == Char.ofNat 123 ||
    c == Char.ofNat 125 || c == '|' || c == '\\' || c == '^' ||
    c == Char.ofNat 96 || c == '[' || c == ']')

/-- Attempt `https?://[urlChar]+` at the head of the input; the optional `s`
is greedy and the body run is maximal.  Returns the match and remainder. -/
def matchHttp (cs : List Char) : Option (List Char × List Char) :=
  if "https://".data.isPrefixOf cs then
    let body := (cs.drop 8).takeWhile urlChar
    if body = [] then none
    else some ("https://".data ++ body, (cs.drop 8).dropWhile urlChar)
  else if "http://".data.isPrefixOf cs then
    let body := (cs.drop 7).takeWhile urlChar
    if body = [] then none
    else some ("http://".data ++ body, (cs.drop 7).dropWhile urlChar)
  else none

/-- Attempt `www\.[urlChar]+` at the head of the input. -/
def matchWww (cs : List Char) : Option (List Char × List Char) :=
  if "www.".data.isPrefixOf cs then
    let body := (cs.drop 4).takeWhile urlChar
    if body = [] then none
    else some ("www.".data ++ body, (cs.drop 4).dropWhile urlChar)
  else none

/-- Attempt the URL pattern at the head of the input; the alternation
prefers the `http(s)` branch. -/
def tryMatchUrl (cs : List Char) : Option (List Char × List Char) :=
  match matchHttp cs with
  | some r => some r
  | none => matchWww cs

/-- `make_link(match)`: `www.` URLs get an `https://` prefix for the href;
labels longer than 50 characters are shortened to 47 characters plus an
ellipsis, for display only. -/
def make_link (url : List Char) : List Char :=
  let href := if "http".data.isPrefixOf url then url else "https://".data ++ url
  let display := if url.length ≤ 50 then url else url.take 47 ++ "...".data
  "<a href=\"".data ++ href
    ++ "\" target=\"_blank\" rel=\"noopener noreferrer\" onclick=\"event.stopPropagation();\">".data
    ++ display ++ "</a>".data

def linkifyAux : Nat → List Char → List Char
  | 0, _ => []
  | _, [] => []
  | f + 1, c :: cs =>
    match tryMatchUrl (c :: cs) with
    | some (url, rest) => make_link url ++ linkifyAux f rest
    | none => c :: linkifyAux f cs

/-- `re.sub(url_pattern, make_link, description)`. -/
def linkify (cs : List Char) : List Char := linkifyAux cs.length cs

/-- Stages 1-2 of `process_description`. -/
def descStripped (s : String) : List Char := stripStars (stripTags s.data)

/-- Stage 3: truncate to 150 whitespace-delimited words, appending `...`
only when the input had more than 150. -/
def descTruncated (s : String) : List Char :=
  let ws := pySplit (descStripped s)
  if 150 < ws.length then joinWords (ws.take 150) ++ "...".data
  else joinWords ws

/-- Stage 4: escape HTML entities. -/
def descEscaped (s : String) : List Char := htmlEscape (descTruncated s)

/-- `process_description(description)`: strip tags, remove star runs,
truncate, escape, linkify. -/
def process_description (s : String) : String :=
  String.mk (linkify (descEscaped s))

/-- No two consecutive whitespace characters. -/
abbrev noDoubleWS (cs : List Char) : Prop :=
  List.Chain' (fun a b => ¬(isSpace a = true ∧ isSpace b = true)) cs

/-! ### Episode URL resolution (`parse_feed`, generate.py lines 95-108) -/

/-- An RSS enclosure; `href` is `none` when the dict lacks the key, so that
`enclosures[0].get('href')` can return Python `None`. -/
structure Enclosure where
  href : Option String
deriving DecidableEq

/-- A generic feed link; `links[0].get('href', '')` defaults to `""`. -/
structure FeedLink where
  href : Option String
deriving DecidableEq

/-- The fields of a parsed feed entry consulted by the URL resolution. -/
structure RawEntry where
  link : Option String
  enclosures : List Enclosure
  links : List FeedLink
deriving DecidableEq

/-- The `episode_url` computation of `parse_feed`: start from
`entry.get('link', '')`; if falsy and the feed URL contains `art19.com`,
substitute the feed website; if still falsy, take the first enclosure's
`href` (which may be `None`), else the first generic link's `href`
defaulted to `""`, else keep the empty string. -/
def resolve_episode_url (entry : RawEntry) (feed_url feed_website : String) :
    Option String :=
  let url0 := entry.link.getD ""
  let url1 :=
    if url0 = "" ∧ containsKw "art19.com".data feed_url.data then feed_website
    else url0
  if url1 = "" then
    match entry.enclosures with
    | enc :: _ => enc.href
    | [] =>
      match entry.links with
      | l :: _ => some (l.href.getD "")
      | [] => some url1
  else some url1

/-! ### Record sorting (`generate_html`, generate.py lines 204-205) -/

/-- A classified meditation episode.  Dates (`datetime` values, totally
ordered) are modelled as natural numbers. -/
structure MeditationRecord where
  title : String
  description : String
  date : Nat
  episode_url : Option String
  feed_name : String
  feed_website : String
  duration : Option String
deriving DecidableEq

/-- "`a` sorts no later than `b`" for the descending-by-date order used by
`meditations.sort(key=lambda x: x['date'], reverse=True)`. -/
def dateGe (a b : MeditationRecord) : Prop := b.date ≤ a.date

instance : DecidableRel dateGe := fun a b => Nat.decLe b.date a.date

instance : IsTotal MeditationRecord dateGe :=
  ⟨fun a b => (Nat.le_total b.date a.date).elim Or.inl Or.inr⟩

instance : IsTrans MeditationRecord dateGe :=
  ⟨fun _ _ _ hab hbc => Nat.le_trans hbc hab⟩

/-- `meditations.sort(key=lambda x: x['date'], reverse=True)`: Python's
`list.sort` is a stable sort, and with `reverse=True` elements with equal
keys keep their original order; a stable sort by descending date is
uniquely determined, and is implemented here by insertion sort under
`dateGe`. -/
def sortMeditations (l : List MeditationRecord) : List MeditationRecord :=
  List.insertionSort dateGe l

/-! ### Pagination numbers (`renderPagination`, generate.py lines 839-886) -/

/-- An item of the pagination-number strip: a page button or an `...`. -/
inductive PageItem where
  | page : Nat → PageItem
  | ellipsis : PageItem
deriving DecidableEq

/-- The page-number list rendered by `renderPagination(totalPages)` for a
given `currentPage`.  The function clears the container and returns before
emitting any numbers when `totalPages <= 1`; with at most `maxVisible = 7`
pages it pushes `1..totalPages`; otherwise it uses one of the three
ellipsis layouts. -/
def renderPaginationNumbers (currentPage totalPages : Nat) : List PageItem :=
  if totalPages ≤ 1 then []
  else if totalPages ≤ 7 then (List.range' 1 totalPages).map PageItem.page
  else if currentPage ≤ 4 then
    [PageItem.page 1, PageItem.page 2, PageItem.page 3, PageItem.page 4,
     PageItem.page 5, PageItem.ellipsis, PageItem.page totalPages]
  else if totalPages - 3 ≤ currentPage then
    [PageItem.page 1, PageItem.ellipsis, PageItem.page (totalPages - 4),
     PageItem.page (totalPages - 3), PageItem.page (totalPages - 2),
     PageItem.page (totalPages - 1), PageItem.page totalPages]
  else
    [PageItem.page 1, PageItem.ellipsis, PageItem.page (currentPage - 1),
     PageItem.page currentPage, PageItem.page (currentPage + 1),
     PageItem.ellipsis, PageItem.page totalPages]

/-! ### Basic lemmas -/

lemma inf_of_pfx {l₁ l₂ : List Char} (h : l₁ <+: l₂) : l₁ <:+: l₂ := by
  obtain ⟨t, ht⟩ := h
  exact ⟨[], t, by simpa using ht⟩

lemma inf_of_sfx {l₁ l₂ : List Char} (h : l₁ <:+ l₂) : l₁ <:+: l₂ := by
  obtain ⟨s, hs⟩ := h
  exact ⟨s, [], by simpa using hs⟩

lemma pfx_of_isPrefixOf {l₁ l₂ : List Char} (h : l₁.isPrefixOf l₂ = true) :
    l₁ <+: l₂ := by
  simpa using h

lemma containsKw_iff {n h : List Char} : containsKw n h = true ↔ n <:+: h := by
  induction h with
  | nil => cases n <;> simp [containsKw, List.isEmpty]
  | cons c cs ih => simp [containsKw, List.infix_cons_iff, ih]

lemma splitOnColon_of_not_mem {cs : List Char} (h : ':' ∉ cs) :
    splitOnColon cs = [cs] := by
  induction cs with
  | nil => rfl
  | cons c cs ih =>
    have hc : ¬c = ':' := by rintro rfl; exact h (List.mem_cons_self _ _)
    have ht : ':' ∉ cs := fun m => h (List.mem_cons_of_mem c m)
    simp [splitOnColon, ih ht, hc]

/-! ### Claim theorems: classifier -/

/-- **C1, counterexample.**  The claim states that (absent exclusions)
`is_meditation` returns true iff an inclusion phrase is a substring of the
concatenation of title and description.  For the title `"guided"` and the
description `"meditation"` no exclusion phrase occurs in the title and no
inclusion phrase is a substring of the plain concatenation
`"guidedmeditation"`, yet the function returns true, because the source
joins the two fields with a single space. -/
theorem is_guided_meditation_concat_cex :
    is_guided_meditation "guided" "meditation" = true ∧
    EXCLUDE_KEYWORDS.all
      (fun ex => !containsKw ex.data (lowerChars "guided".data)) = true ∧
    MEDITATION_KEYWORDS.all
      (fun kw => !containsKw kw.data
        (lowerChars "guided".data ++ lowerChars "meditation".data)) = true := by
  decide

/-- **C1, amended.**  `is_guided_meditation` returns true iff no exclusion
phrase is a case-insensitive substring of the title and some inclusion
phrase is a case-insensitive substring of the concatenation of title, a
single space, and description. -/
theorem is_guided_meditation_spec (title description : String) :
    is_guided_meditation title description = true ↔
      ((∀ ex ∈ EXCLUDE_KEYWORDS, ¬ ex.data <:+: lowerChars title.data) ∧
       ∃ kw ∈ MEDITATION_KEYWORDS,
         kw.data <:+: lowerChars title.data ++ ' ' :: lowerChars description.data) := by
  simp only [is_guided_meditation]
  split
  case isTrue h =>
    refine iff_of_false (by simp) ?_
    rintro ⟨hA, -⟩
    rw [List.any_eq_true] at h
    obtain ⟨ex, hmem, hex⟩ := h
    exact absurd (containsKw_iff.mp hex) (hA ex hmem)
  case isFalse h =>
    rw [List.any_eq_true]
    constructor
    · rintro ⟨kw, hkw, hc⟩
      refine ⟨fun ex hmem hinf => h ?_, kw, hkw, containsKw_iff.mp hc⟩
      exact List.any_eq_true.mpr ⟨ex, hmem, containsKw_iff.mpr hinf⟩
    · rintro ⟨-, kw, hkw, hinf⟩
      exact ⟨kw, hkw, containsKw_iff.mpr hinf⟩

/-! ### Claim theorems: duration formatter -/

/-- **C2, counterexample.**  The claim (and the spec) give
`format_duration("90") == "1h 30m"`, but the code treats a colon-free value
as a count of seconds, so 90 seconds formats as `"1m"`. -/
theorem format_duration_ninety_cex :
    format_duration (some "90") = some "1m" ∧
    format_duration (some "90") ≠ some "1h 30m" := by
  decide

/-- **C2, amended.**  `format_duration` maps `"01:02:03"` to `"1h 2m"`,
`"45:30"` to `"45m"`, `"90"` to `"1m"` (90 seconds), and `"not-a-number"`
to `None`. -/
theorem format_duration_examples :
    format_duration (some "01:02:03") = some "1h 2m" ∧
    format_duration (some "45:30") = some "45m" ∧
    format_duration (some "90") = some "1m" ∧
    format_duration (some "not-a-number") = none := by
  decide

/-- **C3.**  On accepted inputs: a 3-part numeric split `h:m:s` yields
`"{h}h {m}m"` when `h > 0` and `"{m}m"` otherwise; a 2-part numeric split
`m:s` yields `"{m}m"`; a colon-free integer `n` of seconds yields
`"{n//3600}h {(n%3600)//60}m"` when `n//3600 > 0` (Python floor division)
and `"{(n%3600)//60}m"` otherwise.  In every case the seconds component is
absent from the output. -/
theorem format_duration_structure (s : String) (a b c : List Char)
    (h m k n : Int) :
    (splitOnColon s.data = [a, b, c] → pyInt a = some h → pyInt b = some m →
      pyInt c = some k →
      format_duration (some s) =
        if 0 < h then some (toString h ++ "h " ++ toString m ++ "m")
        else some (toString m ++ "m")) ∧
    (splitOnColon s.data = [a, b] → pyInt a = some m → pyInt b = some k →
      format_duration (some s) = some (toString m ++ "m")) ∧
    (':' ∉ s.data → pyInt s.data = some n →
      format_duration (some s) =
        if 0 < n.fdiv 3600 then
          some (toString (n.fdiv 3600) ++ "h "
                ++ toString ((n.fmod 3600).fdiv 60) ++ "m")
        else some (toString ((n.fmod 3600).fdiv 60) ++ "m")) := by
  refine ⟨?_, ?_, ?_⟩
  · intro hsp hpa hpb hpc
    have hne : s.data ≠ [] := by
      intro h0; rw [h0] at hsp; simp [splitOnColon] at hsp
    have hcol : ':' ∈ s.data := by
      by_contra hcc
      rw [splitOnColon_of_not_mem hcc] at hsp
      simp at hsp
    simp only [format_duration]
    rw [if_neg hne, if_pos hcol, hsp]
    simp only [hpa, hpb, hpc]
  · intro hsp hpa hpb
    have hne : s.data ≠ [] := by
      intro h0; rw [h0] at hsp; simp [splitOnColon] at hsp
    have hcol : ':' ∈ s.data := by
      by_contra hcc
      rw [splitOnColon_of_not_mem hcc] at hsp
      simp at hsp
    simp only [format_duration]
    rw [if_neg hne, if_pos hcol, hsp]
    simp only [hpa, hpb]
  · intro hcc hpn
    have hne : s.data ≠ [] := by
      intro h0; rw [h0] at hpn
      exact Option.noConfusion ((show pyInt [] = none from rfl) ▸ hpn)
    simp only [format_duration]
    rw [if_neg hne, if_neg hcc, hpn]

/-- **C3, witness.** -/
theorem format_duration_structure_witness :
    format_duration (some "01:02:03") = some "1h 2m" ∧
    format_duration (some "45:30") = some "45m" ∧
    format_duration (some "90") = some "1m" := by
  refine ⟨?_, ?_, ?_⟩
  · exact ((format_duration_structure "01:02:03" "01".data "02".data "03".data
      1 2 3 0).1 (by decide) (by decide) (by decide) (by decide)).trans (by decide)
  · exact ((format_duration_structure "45:30" "45".data "30".data []
      0 45 30 0).2.1 (by decide) (by decide) (by decide)).trans (by decide)
  · exact ((format_duration_structure "90" [] [] []
      0 0 0 90).2.2 (by decide) (by decide)).trans (by decide)

/-- **C9.**  `format_duration` returns `None` on `None`, on the empty
string, and on any input that contains a colon but splits into a number of
parts other than 2 or 3, regardless of whether the parts are numeric. -/
theorem format_duration_rejects (s : String) :
    format_duration none = none ∧
    format_duration (some "") = none ∧
    (':' ∈ s.data → (splitOnColon s.data).length ≠ 2 →
      (splitOnColon s.data).length ≠ 3 → format_duration (some s) = none) := by
  refine ⟨rfl, by decide, ?_⟩
  intro hc h2 h3
  have hne : s.data ≠ [] := by
    intro h0; rw [h0] at hc; exact absurd hc (List.not_mem_nil _)
  simp only [format_duration]
  rw [if_neg hne, if_pos hc]
  rcases hsp : splitOnColon s.data with _ | ⟨a, _ | ⟨b, _ | ⟨c, _ | ⟨d, tl⟩⟩⟩⟩
  · rfl
  · rfl
  · exact absurd (by rw [hsp]; rfl) h2
  · exact absurd (by rw [hsp]; rfl) h3
  · rfl

/-- **C9, witness.** -/
theorem format_duration_rejects_witness :
    format_duration (some "1:2:3:4") = none :=
  (format_duration_rejects "1:2:3:4").2.2 (by decide) (by decide) (by decide)

/-! ### Claim theorems: pagination numbers -/

/-- **C8, counterexample.**  The claim says all page numbers are shown when
the total is at most 7, but `renderPagination` returns before emitting any
numbers when `totalPages <= 1`: at one page the list is empty rather than
`[1]`. -/
theorem renderPaginationNumbers_cex :
    renderPaginationNumbers 1 1 = [] ∧
    renderPaginationNumbers 1 1 ≠ [PageItem.page 1] := by
  decide

/-- **C8, amended.**  No page numbers are shown when the total is at most
1; all page numbers when 2 ≤ total ≤ 7; first five, ellipsis and last page
when the total exceeds 7 and the current page is at most 4; first page,
ellipsis and the last five when the current page is within 3 of the end;
otherwise first page, ellipsis, current-1..current+1, ellipsis, last
page. -/
theorem renderPaginationNumbers_spec (cp tp : Nat) :
    (tp ≤ 1 → renderPaginationNumbers cp tp = []) ∧
    (2 ≤ tp → tp ≤ 7 →
      renderPaginationNumbers cp tp = (List.range' 1 tp).map PageItem.page) ∧
    (8 ≤ tp → cp ≤ 4 →
      renderPaginationNumbers cp tp =
        (List.range' 1 5).map PageItem.page
          ++ [PageItem.ellipsis, PageItem.page tp]) ∧
    (8 ≤ tp → 5 ≤ cp → tp - 3 ≤ cp →
      renderPaginationNumbers cp tp =
        [PageItem.page 1, PageItem.ellipsis]
          ++ (List.range' (tp - 4) 5).map PageItem.page) ∧
    (8 ≤ tp → 5 ≤ cp → cp + 4 ≤ tp →
      renderPaginationNumbers cp tp =
        [PageItem.page 1, PageItem.ellipsis, PageItem.page (cp - 1),
         PageItem.page cp, PageItem.page (cp + 1), PageItem.ellipsis,
         PageItem.page tp]) := by
  refine ⟨?_, ?_, ?_, ?_, ?_⟩
  · intro h1
    unfold renderPaginationNumbers
    rw [if_pos h1]
  · intro h2 h7
    unfold renderPaginationNumbers
    rw [if_neg (by omega), if_pos h7]
  · intro h8 h4
    unfold renderPaginationNumbers
    rw [if_neg (by omega), if_neg (by omega), if_pos h4]
    rfl
  · intro h8 h5 h3
    unfold renderPaginationNumbers
    rw [if_neg (by omega), if_neg (by omega), if_neg (by omega), if_pos h3,
      show List.range' (tp - 4) 5 = [tp - 4, tp - 4 + 1, tp - 4 + 2,
        tp - 4 + 3, tp - 4 + 4] from rfl]
    simp only [List.map_cons, List.map_nil, List.cons_append, List.nil_append,
      List.cons.injEq, PageItem.page.injEq, and_true, true_and]
    omega
  · intro h8 h5 h4
    unfold renderPaginationNumbers
    rw [if_neg (by omega), if_neg (by omega), if_neg (by omega),
      if_neg (by omega)]

/-- **C8, witness.** -/
theorem renderPaginationNumbers_spec_witness :
    renderPaginationNumbers 5 9 =
      [PageItem.page 1, PageItem.ellipsis, PageItem.page 4, PageItem.page 5,
       PageItem.page 6, PageItem.ellipsis, PageItem.page 9] :=
  ((renderPaginationNumbers_spec 5 9).2.2.2.2 (by decide) (by decide)
    (by decide)).trans (by decide)

/-! ### Claim theorems: episode URL resolution -/

lemma resolve_episode_url_eq (e : RawEntry) (fu fw : String) :
    resolve_episode_url e fu fw =
      (if e.link.getD "" ≠ "" then some (e.link.getD "")
       else if containsKw "art19.com".data fu.data = true ∧ fw ≠ "" then some fw
       else
         match e.enclosures with
         | enc :: _ => enc.href
         | [] =>
           match e.links with
           | l :: _ => some (l.href.getD "")
           | [] => some "") := by
  simp only [resolve_episode_url]
  by_cases hl : e.link.getD "" = ""
  · by_cases ha : containsKw "art19.com".data fu.data = true
    · by_cases hw : fw = "" <;> simp [hl, ha, hw]
    · simp [hl, ha]
  · simp [hl]

/-- **C4, counterexample.**  The claim's invariant says `episode_url` is
non-empty whenever any fallback source is available.  For an entry with no
link, a first enclosure lacking an `href`, and a generic link carrying a
non-empty URL, the code stores the enclosure's missing `href` (Python
`None`) and never consults the available generic link. -/
theorem resolve_episode_url_cex :
    resolve_episode_url ⟨none, [⟨none⟩], [⟨some "https://example.com/ep1"⟩]⟩
        "https://feeds.example.com/rss" "https://example.com" = none ∧
    (FeedLink.mk (some "https://example.com/ep1")).href.getD "" ≠ "" := by
  decide

/-- **C4, amended.**  `episode_url` is resolved in the order: entry link;
else the feed website for `art19.com` feed URLs; else, when enclosures
exist, the first enclosure's `href` as-is (possibly missing or empty, with
no further fallback); else the first generic link's `href` defaulted to the
empty string; else the empty string.  The result is non-empty whenever the
first source consulted by this chain yields a non-empty URL. -/
theorem resolve_episode_url_spec (e : RawEntry) (fu fw : String) :
    (resolve_episode_url e fu fw =
      (if e.link.getD "" ≠ "" then some (e.link.getD "")
       else if containsKw "art19.com".data fu.data = true ∧ fw ≠ "" then some fw
       else
         match e.enclosures with
         | enc :: _ => enc.href
         | [] =>
           match e.links with
           | l :: _ => some (l.href.getD "")
           | [] => some "")) ∧
    ((e.link.getD "" ≠ "" ∨
      (containsKw "art19.com".data fu.data = true ∧ fw ≠ "") ∨
      (∃ enc rest u, e.enclosures = enc :: rest ∧ enc.href = some u ∧ u ≠ "") ∨
      (e.enclosures = [] ∧ ∃ l rest, e.links = l :: rest ∧ l.href.getD "" ≠ "")) →
      ∃ u, resolve_episode_url e fu fw = some u ∧ u ≠ "") := by
  refine ⟨resolve_episode_url_eq e fu fw, ?_⟩
  rw [resolve_episode_url_eq]
  intro hav
  by_cases h1 : e.link.getD "" = ""
  · rw [if_neg (by simpa using h1)]
    by_cases h2 : containsKw "art19.com".data fu.data = true ∧ fw ≠ ""
    · exact ⟨fw, by rw [if_pos h2], h2.2⟩
    · rw [if_neg h2]
      rcases hav with hA | hB | ⟨enc, rest, u, he, hh, hu⟩ | ⟨henc, l, rest, hls, hne⟩
      · exact absurd h1 hA
      · exact absurd hB h2
      · rw [he]
        exact ⟨u, hh, hu⟩
      · rw [henc, hls]
        exact ⟨l.href.getD "", rfl, hne⟩
  · rw [if_pos h1]
    exact ⟨e.link.getD "", rfl, h1⟩

/-- **C4, witness.** -/
theorem resolve_episode_url_spec_witness :
    ∃ u, resolve_episode_url ⟨some "https://pod.example/ep2", [], []⟩
        "https://feeds.pod.example/rss" "https://pod.example" = some u ∧
      u ≠ "" :=
  (resolve_episode_url_spec ⟨some "https://pod.example/ep2", [], []⟩
    "https://feeds.pod.example/rss" "https://pod.example").2
    (Or.inl (by decide))

/-! ### Claim theorems: record sorting -/

lemma filter_orderedInsert (a : MeditationRecord) (l : List MeditationRecord)
    (d : Nat) :
    (l.orderedInsert dateGe a).filter (fun r => r.date == d) =
      if a.date = d then a :: l.filter (fun r => r.date == d)
      else l.filter (fun r => r.date == d) := by
  induction l with
  | nil => by_cases h : a.date = d <;> simp [List.orderedInsert, h]
  | cons b l ih =>
    simp only [List.orderedInsert]
    by_cases hr : dateGe a b
    · rw [if_pos hr]
      by_cases h : a.date = d <;> simp [List.filter_cons, h]
    · rw [if_neg hr]
      have hb : ¬b.date = a.date := by
        unfold dateGe at hr; omega
      by_cases h : a.date = d
      · have hbd : ¬b.date = d := by omega
        simp [List.filter_cons, hbd, ih, h]
      · simp [List.filter_cons, ih, h]

lemma filter_sortMeditations (l : List MeditationRecord) (d : Nat) :
    (sortMeditations l).filter (fun r => r.date == d) =
      l.filter (fun r => r.date == d) := by
  induction l with
  | nil => rfl
  | cons a l ih =>
    simp only [sortMeditations, List.insertionSort] at *
    rw [filter_orderedInsert]
    by_cases h : a.date = d <;> simp [List.filter_cons, h, ih]

/-- **C7.**  The rendering order is the record list sorted by date
descending (every earlier record's date is at least every later one's), a
permutation of the input, and the sort is stable: for every date the
records carrying it appear in their original feed-processing order. -/
theorem sortMeditations_spec (l : List MeditationRecord) :
    List.Sorted dateGe (sortMeditations l) ∧ (sortMeditations l).Perm l ∧
      ∀ d : Nat, (sortMeditations l).filter (fun r => r.date == d) =
        l.filter (fun r => r.date == d) :=
  ⟨List.sorted_insertionSort dateGe l, List.perm_insertionSort dateGe l,
   fun d => filter_sortMeditations l d⟩

/-! ### Neutrality of the description pipeline on plain text -/

lemma matchTag_eq_none {cs : List Char} (h : '<' ∉ cs) : matchTag cs = none := by
  match cs with
  | [] => rfl
  | [c] => rfl
  | c0 :: c1 :: rest =>
    have h0 : ¬c0 = '<' := by rintro rfl; exact h (List.mem_cons_self _ _)
    simp [matchTag, h0]

lemma stripTagsAux_eq_self :
    ∀ f (cs : List Char), cs.length ≤ f → '<' ∉ cs → stripTagsAux f cs = cs := by
  intro f
  induction f with
  | zero =>
    intro cs hl _
    cases cs with
    | nil => rfl
    | cons c cs => simp at hl
  | succ f ih =>
    intro cs hl hm
    cases cs with
    | nil => rfl
    | cons c cs =>
      have hl' : cs.length ≤ f := by simp at hl; omega
      have hm' : '<' ∉ cs := fun m => hm (List.mem_cons_of_mem c m)
      simp only [stripTagsAux, matchTag_eq_none hm]
      rw [ih cs hl' hm']

lemma stripTags_eq_self {cs : List Char} (h : '<' ∉ cs) : stripTags cs = cs :=
  stripTagsAux_eq_self cs.length cs (Nat.le_refl _) h

lemma stripStarsAux_eq_self :
    ∀ f (cs : List Char), cs.length ≤ f → '*' ∉ cs → stripStarsAux f cs = cs := by
  intro f
  induction f with
  | zero =>
    intro cs hl _
    cases cs with
    | nil => rfl
    | cons c cs => simp at hl
  | succ f ih =>
    intro cs hl hm
    cases cs with
    | nil => rfl
    | cons c cs =>
      have hl' : cs.length ≤ f := by simp at hl; omega
      have hm' : '*' ∉ cs := fun m => hm (List.mem_cons_of_mem c m)
      have hc : ¬c = '*' := by rintro rfl; exact hm (List.mem_cons_self _ _)
      simp only [stripStarsAux, if_neg hc]
      rw [ih cs hl' hm']

lemma stripStars_eq_self {cs : List Char} (h : '*' ∉ cs) : stripStars cs = cs :=
  stripStarsAux_eq_self cs.length cs (Nat.le_refl _) h

lemma escChar_eq_self {c : Char}
    (h : ¬(c = '&' ∨ c = '<' ∨ c = '>' ∨ c = '"' ∨ c = '\'')) : escChar c = [c] := by
  push_neg at h
  obtain ⟨h1, h2, h3, h4, h5⟩ := h
  simp [escChar, h1, h2, h3, h4, h5]

lemma htmlEscape_eq_self {cs : List Char}
    (h : ∀ c ∈ cs, ¬(c = '&' ∨ c = '<' ∨ c = '>' ∨ c = '"' ∨ c = '\'')) :
    htmlEscape cs = cs := by
  induction cs with
  | nil => rfl
  | cons c cs ih =>
    show escChar c ++ htmlEscape cs = c :: cs
    rw [escChar_eq_self (h c (List.mem_cons_self _ _)),
      ih (fun x hx => h x (List.mem_cons_of_mem c hx))]
    rfl

lemma matchHttp_colon_mem {cs : List Char} {r : List Char × List Char}
    (h : matchHttp cs = some r) : ':' ∈ cs := by
  by_cases h8 : "https://".data.isPrefixOf cs = true
  · exact (pfx_of_isPrefixOf h8).subset (by decide)
  · by_cases h7 : "http://".data.isPrefixOf cs = true
    · exact (pfx_of_isPrefixOf h7).subset (by decide)
    · rw [matchHttp, if_neg h8, if_neg h7] at h
      exact Option.noConfusion h

lemma matchWww_www {cs : List Char} {r : List Char × List Char}
    (h : matchWww cs = some r) : ['w', 'w', 'w'] <:+: cs := by
  by_cases h4 : "www.".data.isPrefixOf cs = true
  · have hp : "www.".data <+: cs := pfx_of_isPrefixOf h4
    exact inf_of_pfx ((show ['w', 'w', 'w'] <+: "www.".data from ⟨['.'], rfl⟩).trans hp)
  · rw [matchWww, if_neg h4] at h
    exact Option.noConfusion h

lemma tryMatchUrl_eq_none {cs : List Char} (h1 : ':' ∉ cs)
    (h2 : ¬ ['w', 'w', 'w'] <:+: cs) : tryMatchUrl cs = none := by
  rw [tryMatchUrl]
  cases hh : matchHttp cs with
  | some r => exact absurd (matchHttp_colon_mem hh) h1
  | none =>
    cases hw : matchWww cs with
    | some r => exact absurd (matchWww_www hw) h2
    | none => rfl

lemma linkifyAux_eq_self :
    ∀ f (cs : List Char), cs.length ≤ f → ':' ∉ cs →
      ¬ ['w', 'w', 'w'] <:+: cs → linkifyAux f cs = cs := by
  intro f
  induction f with
  | zero =>
    intro cs hl _ _
    cases cs with
    | nil => rfl
    | cons c cs => simp at hl
  | succ f ih =>
    intro cs hl h1 h2
    cases cs with
    | nil => rfl
    | cons c cs =>
      have hl' : cs.length ≤ f := by simp at hl; omega
      have h1' : ':' ∉ cs := fun m => h1 (List.mem_cons_of_mem c m)
      have h2' : ¬ ['w', 'w', 'w'] <:+: cs := fun m => h2 (List.infix_cons m)
      simp only [linkifyAux, tryMatchUrl_eq_none h1 h2]
      rw [ih cs hl' h1' h2']

lemma linkify_eq_self {cs : List Char} (h1 : ':' ∉ cs)
    (h2 : ¬ ['w', 'w', 'w'] <:+: cs) : linkify cs = cs :=
  linkifyAux_eq_self cs.length cs (Nat.le_refl _) h1 h2

/-! ### Words produced by `pySplit` -/

lemma pySplitAux_nonspace :
    ∀ {cs : List Char} {w}, w ∈ pySplitAux cs → ∀ c ∈ w, isSpace c = false := by
  intro cs
  induction cs with
  | nil => intro w hw; simp [pySplitAux] at hw
  | cons a cs ih =>
    intro w hw c hc
    rw [show pySplitAux (a :: cs) = splitStep a (pySplitAux cs) from rfl] at hw
    unfold splitStep at hw
    by_cases ha : isSpace a = true
    · rw [if_pos ha] at hw
      rcases List.mem_cons.mp hw with rfl | hw'
      · exact absurd hc (List.not_mem_nil c)
      · exact ih hw' c hc
    · rw [if_neg ha] at hw
      have ha' : isSpace a = false := by
        cases h : isSpace a
        · rfl
        · exact absurd h ha
      cases hacc : pySplitAux cs with
      | nil =>
        rw [hacc] at hw
        have : w = [a] := List.mem_singleton.mp hw
        subst this
        have : c = a := List.mem_singleton.mp hc
        subst this
        exact ha'
      | cons w0 ws =>
        rw [hacc] at hw
        rcases List.mem_cons.mp hw with rfl | hw'
        · rcases List.mem_cons.mp hc with rfl | hc'
          · exact ha'
          · exact ih (by rw [hacc]; exact List.mem_cons_self _ _) c hc'
        · exact ih (by rw [hacc]; exact List.mem_cons_of_mem _ hw') c hc

lemma pySplitAux_shape (cs : List Char) :
    (∀ w ∈ pySplitAux cs, w <:+: cs) ∧
      (∀ w ws', pySplitAux cs = w :: ws' → w <+: cs) := by
  induction cs with
  | nil =>
    constructor
    · intro w hw; simp [pySplitAux] at hw
    · intro w ws' h; simp [pySplitAux] at h
  | cons a cs ih =>
    obtain ⟨ihI, ihP⟩ := ih
    have hstep : pySplitAux (a :: cs) = splitStep a (pySplitAux cs) := rfl
    constructor
    · intro w hw
      rw [hstep] at hw
      unfold splitStep at hw
      by_cases ha : isSpace a = true
      · rw [if_pos ha] at hw
        rcases List.mem_cons.mp hw with rfl | hw'
        · exact ⟨[], a :: cs, rfl⟩
        · exact List.infix_cons (ihI w hw')
      · rw [if_neg ha] at hw
        cases hacc : pySplitAux cs with
        | nil =>
          rw [hacc] at hw
          have : w = [a] := List.mem_singleton.mp hw
          subst this
          exact inf_of_pfx (show [a] <+: a :: cs from ⟨cs, rfl⟩)
        | cons w0 ws =>
          rw [hacc] at hw
          rcases List.mem_cons.mp hw with rfl | hw'
          · exact inf_of_pfx (List.cons_prefix_cons.mpr ⟨rfl, ihP w0 ws hacc⟩)
          · exact List.infix_cons (ihI w (by rw [hacc]; exact List.mem_cons_of_mem _ hw'))
    · intro w ws' h
      rw [hstep] at h
      unfold splitStep at h
      by_cases ha : isSpace a = true
      · rw [if_pos ha] at h
        injection h with h1 h2
        subst h1
        exact ⟨a :: cs, rfl⟩
      · rw [if_neg ha] at h
        cases hacc : pySplitAux cs with
        | nil =>
          rw [hacc] at h
          injection h with h1 h2
          subst h1
          exact ⟨cs, rfl⟩
        | cons w0 ws =>
          rw [hacc] at h
          injection h with h1 h2
          subst h1
          exact List.cons_prefix_cons.mpr ⟨rfl, ihP w0 ws hacc⟩

lemma pySplit_mem {cs w : List Char} (h : w ∈ pySplit cs) :
    w ≠ [] ∧ (∀ c ∈ w, isSpace c = false) ∧ w <:+: cs := by
  rw [pySplit, List.mem_filter] at h
  obtain ⟨hm, hne⟩ := h
  refine ⟨?_, pySplitAux_nonspace hm, (pySplitAux_shape cs).1 w hm⟩
  cases w with
  | nil => simp at hne
  | cons c w' => exact fun h0 => List.noConfusion h0

/-! ### Words survive `joinWords` -/

lemma joinWords_mem {ws : List (List Char)} {c : Char} (h : c ∈ joinWords ws) :
    c = ' ' ∨ ∃ w ∈ ws, c ∈ w := by
  induction ws with
  | nil => simp [joinWords] at h
  | cons w tail ih =>
    cases tail with
    | nil => exact Or.inr ⟨w, List.mem_cons_self _ _, by simpa [joinWords] using h⟩
    | cons v rest =>
      rw [show joinWords (w :: v :: rest) = w ++ ' ' :: joinWords (v :: rest) from rfl] at h
      rcases List.mem_append.mp h with hw | hc
      · exact Or.inr ⟨w, List.mem_cons_self _ _, hw⟩
      · rcases List.mem_cons.mp hc with rfl | h'
        · exact Or.inl rfl
        · rcases ih h' with h0 | ⟨u, hu, hcu⟩
          · exact Or.inl h0
          · exact Or.inr ⟨u, List.mem_cons_of_mem _ hu, hcu⟩

/-! ### Decomposing an infix of an append -/

lemma infix_append_split {xs a b : List Char} (h : xs <:+: a ++ b) :
    xs <:+: a ∨ xs <:+: b ∨
      ∃ x1 x2, xs = x1 ++ x2 ∧ x1 ≠ [] ∧ x2 ≠ [] ∧ x1 <:+ a ∧ x2 <+: b := by
  obtain ⟨p, q, hpq⟩ := h
  have hpq' : p ++ (xs ++ q) = a ++ b := by rw [← List.append_assoc]; exact hpq
  rcases List.append_eq_append_iff.mp hpq' with ⟨a', ha, hb⟩ | ⟨c', hc, hd⟩
  · rcases List.append_eq_append_iff.mp hb with ⟨t, hta, htb⟩ | ⟨c2, hc2, hd2⟩
    · refine Or.inl ⟨p, t, ?_⟩
      rw [ha, hta, List.append_assoc]
    · by_cases ha' : a' = []
      · subst ha'
        rw [List.nil_append] at hc2
        exact Or.inr (Or.inl (inf_of_pfx (show xs <+: b from ⟨q, by rw [hd2, hc2]⟩)))
      · by_cases hc2e : c2 = []
        · subst hc2e
          rw [List.append_nil] at hc2
          subst hc2
          exact Or.inl (inf_of_sfx (show xs <:+ a from ⟨p, ha.symm⟩))
        · exact Or.inr (Or.inr ⟨a', c2, hc2, ha', hc2e, ⟨p, ha.symm⟩, ⟨q, hd2.symm⟩⟩)
  · refine Or.inr (Or.inl ⟨c', q, ?_⟩)
    rw [hd, List.append_assoc]

/-- A nonempty string without spaces or dots that occurs inside
`joinWords ws` followed by dots must occur inside one of the words. -/
lemma nonsep_infix_join {ws : List (List Char)} {ds xs : List Char}
    (hds : ∀ c ∈ ds, c = '.') (hne : xs ≠ [])
    (hxs : ∀ c ∈ xs, c ≠ ' ' ∧ c ≠ '.')
    (hinf : xs <:+: joinWords ws ++ ds) :
    ∃ w ∈ ws, xs <:+: w := by
  induction ws with
  | nil =>
    exfalso
    rw [show joinWords [] = [] from rfl, List.nil_append] at hinf
    obtain ⟨c, hc⟩ := List.exists_mem_of_ne_nil xs hne
    exact (hxs c hc).2 (hds c (hinf.subset hc))
  | cons w tail ih =>
    cases tail with
    | nil =>
      rw [show joinWords [w] = w from rfl] at hinf
      rcases infix_append_split hinf with h | h | ⟨x1, x2, hx, hx1, hx2, -, hx2p⟩
      · exact ⟨w, List.mem_cons_self _ _, h⟩
      · exfalso
        obtain ⟨c, hc⟩ := List.exists_mem_of_ne_nil xs hne
        exact (hxs c hc).2 (hds c (h.subset hc))
      · exfalso
        obtain ⟨c, hc⟩ := List.exists_mem_of_ne_nil x2 hx2
        have hcxs : c ∈ xs := by rw [hx]; exact List.mem_append.mpr (Or.inr hc)
        exact (hxs c hcxs).2 (hds c (hx2p.subset hc))
    | cons v rest =>
      rw [show joinWords (w :: v :: rest) = w ++ ' ' :: joinWords (v :: rest) from rfl,
        List.append_assoc, List.cons_append] at hinf
      rcases infix_append_split hinf with h | h | ⟨x1, x2, hx, hx1, hx2, -, hx2p⟩
      · exact ⟨w, List.mem_cons_self _ _, h⟩
      · rcases List.infix_cons_iff.mp h with hp | hi
        · exfalso
          cases xs with
          | nil => exact hne rfl
          | cons c xs' =>
            obtain ⟨hc, -⟩ := List.cons_prefix_cons.mp hp
            exact (hxs c (List.mem_cons_self _ _)).1 hc
        · obtain ⟨u, hu, hxu⟩ := ih hi
          exact ⟨u, List.mem_cons_of_mem _ hu, hxu⟩
      · exfalso
        cases x2 with
        | nil => exact hx2 rfl
        | cons c x2' =>
          obtain ⟨hc, -⟩ := List.cons_prefix_cons.mp hx2p
          have hcxs : c ∈ xs := by
            rw [hx]; exact List.mem_append.mpr (Or.inr (List.mem_cons_self _ _))
          exact (hxs c hcxs).1 hc

/-! ### Whitespace-run lemmas -/

lemma chain_of_all_nonspace {l : List Char}
    (h : ∀ c ∈ l, isSpace c = false) : noDoubleWS l := by
  induction l with
  | nil => exact List.chain'_nil
  | cons c cs ih =>
    refine List.chain'_cons'.mpr ⟨?_, ih fun x hx => h x (List.mem_cons_of_mem c hx)⟩
    rintro y hy ⟨hc, hy'⟩
    rw [h c (List.mem_cons_self _ _)] at hc
    exact Bool.noConfusion hc

lemma noDoubleWS_append_left {a b : List Char}
    (ha : ∀ c ∈ a, isSpace c = false) (hb : noDoubleWS b) :
    noDoubleWS (a ++ b) := by
  refine List.chain'_append.mpr ⟨chain_of_all_nonspace ha, hb, ?_⟩
  rintro x hx y hy ⟨hsx, hsy⟩
  rw [ha x (List.mem_of_mem_getLast? hx)] at hsx
  exact Bool.noConfusion hsx

lemma joinWords_noDoubleWS {ws : List (List Char)} {ds : List Char}
    (hws : ∀ w ∈ ws, w ≠ [] ∧ ∀ c ∈ w, isSpace c = false)
    (hds : ∀ c ∈ ds, isSpace c = false) :
    noDoubleWS (joinWords ws ++ ds) := by
  induction ws with
  | nil =>
    rw [show joinWords [] = [] from rfl, List.nil_append]
    exact chain_of_all_nonspace hds
  | cons w tail ih =>
    cases tail with
    | nil =>
      rw [show joinWords [w] = w from rfl]
      exact noDoubleWS_append_left (hws w (List.mem_cons_self _ _)).2
        (chain_of_all_nonspace hds)
    | cons v rest =>
      rw [show joinWords (w :: v :: rest) = w ++ ' ' :: joinWords (v :: rest) from rfl,
        List.append_assoc, List.cons_append]
      apply noDoubleWS_append_left (hws w (List.mem_cons_self _ _)).2
      refine List.chain'_cons'.mpr
        ⟨?_, ih (fun u hu => hws u (List.mem_cons_of_mem _ hu))⟩
      rintro y hy ⟨-, hsy⟩
      obtain ⟨hvne, hvns⟩ := hws v (List.mem_cons_of_mem _ (List.mem_cons_self _ _))
      cases hv : v with
      | nil => exact hvne hv
      | cons c v' =>
        have hhead : (joinWords (v :: rest) ++ ds).head? = some c := by
          rw [hv]; cases rest <;> rfl
        rw [hhead] at hy
        have hyc : y = c := by cases hy; rfl
        subst hyc
        rw [hvns y (by rw [hv]; exact List.mem_cons_self _ _)] at hsy
        exact Bool.noConfusion hsy

lemma escChar_cases (c : Char) :
    escChar c = [c] ∨ ∀ x ∈ escChar c, isSpace x = false := by
  unfold escChar
  split_ifs <;> first | exact Or.inr (by decide) | exact Or.inl rfl

lemma escChar_chain (c : Char) :
    List.Chain' (fun a b => ¬(isSpace a = true ∧ isSpace b = true)) (escChar c) := by
  rcases escChar_cases c with h | h
  · rw [h]; exact List.chain'_singleton c
  · exact chain_of_all_nonspace h

lemma escChar_ne_nil (c : Char) : escChar c ≠ [] := by
  unfold escChar
  split_ifs <;> simp

lemma htmlEscape_noDoubleWS {cs : List Char} (h : noDoubleWS cs) :
    noDoubleWS (htmlEscape cs) := by
  induction cs with
  | nil => exact List.chain'_nil
  | cons c cs ih =>
    rw [show htmlEscape (c :: cs) = escChar c ++ htmlEscape cs from rfl]
    refine List.chain'_append.mpr ⟨escChar_chain c, ih (List.Chain'.tail h), ?_⟩
    rintro x hx y hy ⟨hsx, hsy⟩
    have hxc : x = c := by
      rcases escChar_cases c with hc | hc
      · rw [hc] at hx
        have : some c = some x := hx
        injection this with he
        exact he.symm
      · rw [hc x (List.mem_of_mem_getLast? hx)] at hsx
        exact Bool.noConfusion hsx
    cases cs with
    | nil => exact absurd (List.mem_of_mem_head? hy) (by simp [htmlEscape])
    | cons c2 cs2 =>
      have hyc : y = c2 := by
        rw [show htmlEscape (c2 :: cs2) = escChar c2 ++ htmlEscape cs2 from rfl,
          List.head?_append] at hy
        rcases escChar_cases c2 with hc | hc
        · rw [hc] at hy
          have : some c2 = some y := hy
          injection this with he
          exact he.symm
        · -- the left part of the append is nonempty, so y is the head of
          -- `escChar c2`, all of whose characters are non-whitespace.
          cases he : escChar c2 with
          | nil => exact absurd he (escChar_ne_nil c2)
          | cons e es =>
            rw [he] at hy
            have : some e = some y := hy
            injection this with h2
            rw [← h2] at hsy
            rw [hc e (by rw [he]; exact List.mem_cons_self _ _)] at hsy
            exact Bool.noConfusion hsy
      subst hxc hyc
      exact (List.chain'_cons.mp h).1 ⟨hsx, hsy⟩

/-! ### Claim theorems: description processing -/

/-- **C5.**  On plain text — no markup, asterisk, HTML-special or colon
characters, and no occurrence of `www` (so neither the tag/star stripping
nor escaping nor linkification can fire) — `process_description` with more
than 150 whitespace-delimited words returns exactly the first 150 words
joined by single spaces followed by the ellipsis marker `...`, and with at
most 150 words returns the words joined by single spaces, unchanged and
without an ellipsis. -/
theorem process_description_truncation (s : String)
    (hplain : ∀ c ∈ s.data,
      ¬(c = '<' ∨ c = '*' ∨ c = '&' ∨ c = '>' ∨ c = '"' ∨ c = '\'' ∨ c = ':'))
    (hw : containsKw ['w', 'w', 'w'] s.data = false) :
    (150 < (pySplit s.data).length →
      process_description s =
        String.mk (joinWords ((pySplit s.data).take 150) ++ "...".data) ∧
      ((pySplit s.data).take 150).length = 150) ∧
    ((pySplit s.data).length ≤ 150 →
      process_description s = String.mk (joinWords (pySplit s.data))) := by
  have hlt : '<' ∉ s.data := fun m => hplain _ m (Or.inl rfl)
  have hst : '*' ∉ s.data := fun m => hplain _ m (Or.inr (Or.inl rfl))
  have hwww : ¬ ['w', 'w', 'w'] <:+: s.data := by
    intro hi
    have : (false : Bool) = true := hw ▸ containsKw_iff.mpr hi
    exact Bool.noConfusion this
  have hd : descStripped s = s.data := by
    rw [descStripped, stripTags_eq_self hlt, stripStars_eq_self hst]
  have hmain : ∀ (ws' : List (List Char)) (ds : List Char),
      (∀ w ∈ ws', w ∈ pySplit s.data) → (∀ c ∈ ds, c = '.') →
      linkify (htmlEscape (joinWords ws' ++ ds)) = joinWords ws' ++ ds := by
    intro ws' ds hsub hds
    have hchars : ∀ c ∈ joinWords ws' ++ ds, c = ' ' ∨ c = '.' ∨ c ∈ s.data := by
      intro c hc
      rcases List.mem_append.mp hc with hj | hdm
      · rcases joinWords_mem hj with h0 | ⟨w, hw', hcw⟩
        · exact Or.inl h0
        · exact Or.inr (Or.inr ((pySplit_mem (hsub w hw')).2.2.subset hcw))
      · exact Or.inr (Or.inl (hds c hdm))
    have hesc : htmlEscape (joinWords ws' ++ ds) = joinWords ws' ++ ds := by
      apply htmlEscape_eq_self
      intro c hc hbad
      rcases hchars c hc with rfl | rfl | hmem
      · rcases hbad with h | h | h | h | h <;> exact absurd h (by decide)
      · rcases hbad with h | h | h | h | h <;> exact absurd h (by decide)
      · rcases hbad with h | h | h | h | h
        · exact hplain c hmem (Or.inr (Or.inr (Or.inl h)))
        · exact hplain c hmem (Or.inl h)
        · exact hplain c hmem (Or.inr (Or.inr (Or.inr (Or.inl h))))
        · exact hplain c hmem (Or.inr (Or.inr (Or.inr (Or.inr (Or.inl h)))))
        · exact hplain c hmem (Or.inr (Or.inr (Or.inr (Or.inr (Or.inr (Or.inl h))))))
    rw [hesc]
    apply linkify_eq_self
    · intro hm
      rcases hchars ':' hm with h | h | h
      · exact absurd h (by decide)
      · exact absurd h (by decide)
      · exact hplain ':' h (Or.inr (Or.inr (Or.inr (Or.inr (Or.inr (Or.inr rfl))))))
    · intro hinf
      have hx : ∀ c ∈ ['w', 'w', 'w'], c ≠ ' ' ∧ c ≠ '.' := by decide
      obtain ⟨w, hw', hxw⟩ :=
        nonsep_infix_join hds (by decide) hx hinf
      exact hwww (hxw.trans (pySplit_mem (hsub w hw')).2.2)
  constructor
  · intro h150
    refine ⟨?_, by rw [List.length_take]; omega⟩
    rw [process_description, descEscaped, descTruncated, hd, if_pos h150]
    rw [hmain ((pySplit s.data).take 150) "...".data
      (fun w hw' => List.take_subset _ _ hw')
      (by
        intro c hc
        have h3 : c = '.' ∨ c = '.' ∨ c = '.' := by simpa using hc
        rcases h3 with h | h | h <;> exact h)]
  · intro hle
    rw [process_description, descEscaped, descTruncated, hd, if_neg (by omega)]
    have := hmain (pySplit s.data) [] (fun w hw' => hw')
      (fun c hc => absurd hc (List.not_mem_nil c))
    rw [List.append_nil] at this
    rw [this]

/-- **C5, witness.** -/
theorem process_description_truncation_witness :
    process_description "hello plain world" =
      String.mk (joinWords (pySplit "hello plain world".data)) :=
  (process_description_truncation "hello plain world" (by decide) (by decide)).2
    (by decide)

/-- **C10.**  Whenever the URL linkification is a no-op on the escaped text
(no linkifiable URL occurs), the output of `process_description` contains
no run of two or more consecutive whitespace characters: the split/join
stage collapses every whitespace run, regardless of length or
truncation. -/
theorem process_description_whitespace (s : String)
    (h : linkify (descEscaped s) = descEscaped s) :
    noDoubleWS (process_description s).data := by
  show noDoubleWS (linkify (descEscaped s))
  rw [h, descEscaped]
  apply htmlEscape_noDoubleWS
  rw [descTruncated]
  have hwords : ∀ w ∈ pySplit (descStripped s),
      w ≠ [] ∧ ∀ c ∈ w, isSpace c = false := fun w hw =>
    ⟨(pySplit_mem hw).1, (pySplit_mem hw).2.1⟩
  by_cases h150 : 150 < (pySplit (descStripped s)).length
  · rw [if_pos h150]
    refine joinWords_noDoubleWS
      (fun w hw => hwords w (List.take_subset _ _ hw)) ?_
    intro c hc
    have h3 : c = '.' ∨ c = '.' ∨ c = '.' := by simpa using hc
    rcases h3 with h | h | h <;> (subst h; rfl)
  · rw [if_neg h150]
    have := @joinWords_noDoubleWS (pySplit (descStripped s)) [] hwords
      (fun c hc => absurd hc (List.not_mem_nil c))
    rwa [List.append_nil] at this

/-- **C10, witness.** -/
theorem process_description_whitespace_witness :
    noDoubleWS (process_description "a  b\tc").data :=
  process_description_whitespace "a  b\tc" (by decide)

lemma linkifyAux_nil : ∀ f, linkifyAux f ([] : List Char) = [] := fun f => by
  cases f <;> rfl

/-- **C6.**  Linkification happens after escaping and wraps bare URLs in
anchors: on the spec's concrete input the tags and the triple-asterisk run
are removed and the trailing URL becomes an anchor whose href and label
both equal the URL; and for every bare URL (an `http://` or `www.` prefix
followed by a nonempty run of URL-body characters) the rewriting produces
exactly the anchor whose href is the original URL (with `https://`
synthesized for `www.` URLs), whose label is the URL when it has at most 50
characters and its first 47 characters plus an ellipsis otherwise, while
the href always stays the full URL. -/
theorem process_description_linking :
    process_description "<b>hello</b> *** world http://example.com/a/b/c" =
      "hello world <a href=\"http://example.com/a/b/c\" target=\"_blank\" rel=\"noopener noreferrer\" onclick=\"event.stopPropagation();\">http://example.com/a/b/c</a>" ∧
    ∀ body : List Char, body ≠ [] → (∀ c ∈ body, urlChar c = true) →
      linkify ("http://".data ++ body) =
        "<a href=\"".data ++ ("http://".data ++ body) ++
          "\" target=\"_blank\" rel=\"noopener noreferrer\" onclick=\"event.stopPropagation();\">".data ++
          (if ("http://".data ++ body).length ≤ 50 then "http://".data ++ body
           else ("http://".data ++ body).take 47 ++ "...".data) ++ "</a>".data ∧
      linkify ("www.".data ++ body) =
        "<a href=\"".data ++ ("https://".data ++ ("www.".data ++ body)) ++
          "\" target=\"_blank\" rel=\"noopener noreferrer\" onclick=\"event.stopPropagation();\">".data ++
          (if ("www.".data ++ body).length ≤ 50 then "www.".data ++ body
           else ("www.".data ++ body).take 47 ++ "...".data) ++ "</a>".data := by
  refine ⟨by decide, ?_⟩
  intro body hne hall
  have ht : body.takeWhile urlChar = body :=
    List.takeWhile_eq_self_iff.mpr fun a ha => hall a ha
  have hdp : body.dropWhile urlChar = [] :=
    List.dropWhile_eq_nil_iff.mpr fun a ha => hall a ha
  constructor
  · have hmH : matchHttp ('h' :: 't' :: 't' :: 'p' :: ':' :: '/' :: '/' :: body) =
        some ("http://".data ++ body, []) := by
      simp only [matchHttp,
        show ("https://".data.isPrefixOf
          ('h' :: 't' :: 't' :: 'p' :: ':' :: '/' :: '/' :: body)) = false from rfl,
        show ("http://".data.isPrefixOf
          ('h' :: 't' :: 't' :: 'p' :: ':' :: '/' :: '/' :: body)) = true from by
            simp [List.isPrefixOf_cons₂, List.isPrefixOf_nil_left],
        Bool.false_eq_true, if_false, eq_self_iff_true, if_true,
        List.drop_succ_cons, List.drop_zero, ht, hdp]
      rw [if_neg hne]
    have hmT : tryMatchUrl ('h' :: 't' :: 't' :: 'p' :: ':' :: '/' :: '/' :: body) =
        some ("http://".data ++ body, []) := by
      rw [tryMatchUrl, hmH]
    have hlink : linkify ("http://".data ++ body) =
        make_link ("http://".data ++ body) := by
      rw [linkify,
        show ("http://".data ++ body).length = body.length + 7 from by
          rw [List.length_append, show ("http://".data).length = 7 from rfl,
            Nat.add_comm],
        show body.length + 7 = body.length + 6 + 1 from rfl,
        show "http://".data ++ body =
          'h' :: 't' :: 't' :: 'p' :: ':' :: '/' :: '/' :: body from rfl]
      simp only [linkifyAux, hmT]
      rw [List.append_nil]
      rfl
    rw [hlink]
    simp only [make_link,
      show ("http".data.isPrefixOf ("http://".data ++ body)) = true from by
        simp [List.isPrefixOf_cons₂, List.isPrefixOf_nil_left],
      eq_self_iff_true, if_true]
  · have hmH : matchHttp ('w' :: 'w' :: 'w' :: '.' :: body) = none := by
      simp only [matchHttp,
        show ("https://".data.isPrefixOf ('w' :: 'w' :: 'w' :: '.' :: body)) = false
          from rfl,
        show ("http://".data.isPrefixOf ('w' :: 'w' :: 'w' :: '.' :: body)) = false
          from rfl,
        Bool.false_eq_true, if_false]
    have hmW : matchWww ('w' :: 'w' :: 'w' :: '.' :: body) =
        some ("www.".data ++ body, []) := by
      simp only [matchWww,
        show ("www.".data.isPrefixOf ('w' :: 'w' :: 'w' :: '.' :: body)) = true
          from by simp [List.isPrefixOf_cons₂, List.isPrefixOf_nil_left],
        eq_self_iff_true, if_true, List.drop_succ_cons, List.drop_zero, ht, hdp]
      rw [if_neg hne]
    have hmT : tryMatchUrl ('w' :: 'w' :: 'w' :: '.' :: body) =
        some ("www.".data ++ body, []) := by
      rw [tryMatchUrl, hmH, hmW]
    have hlink : linkify ("www.".data ++ body) =
        make_link ("www.".data ++ body) := by
      rw [linkify,
        show ("www.".data ++ body).length = body.length + 4 from by
          rw [List.length_append, show ("www.".data).length = 4 from rfl,
            Nat.add_comm],
        show body.length + 4 = body.length + 3 + 1 from rfl,
        show "www.".data ++ body = 'w' :: 'w' :: 'w' :: '.' :: body from rfl]
      simp only [linkifyAux, hmT]
      rw [List.append_nil]
      rfl
    rw [hlink]
    simp only [make_link,
      show ("http".data.isPrefixOf ("www.".data ++ body)) = false from rfl,
      Bool.false_eq_true, if_false]

/-- **C6, witness.** -/
theorem process_description_linking_witness :
    linkify ("http://".data ++ "x".data) =
      "<a href=\"".data ++ ("http://".data ++ "x".data) ++
        "\" target=\"_blank\" rel=\"noopener noreferrer\" onclick=\"event.stopPropagation();\">".data ++
        (if ("http://".data ++ "x".data).length ≤ 50 then "http://".data ++ "x".data
         else ("http://".data ++ "x".data).take 47 ++ "...".data) ++ "</a>".data :=
  (process_description_linking.2 "x".data (by decide) (by decide)).1
